import Mathlib

/-!
Verification of the `symnix-image-scraper` repository (`docker_image_scraper.py`).

The script fetches Docker Hub tag lists (cursor-paginated), extracts a
semantic-version prefix from each tag name with the regexes on lines 34-35,
deduplicates by normalized version, sorts descending by the integer tuple of
version components, reconciles against a local JSON snapshot (`all_tags.json`)
and rewrites that snapshot only when some image gained newer tags.

The shallow embedding below translates the pure parts of the script:

* `parseTag` models `re.match(r'v?(\d+(\.\d+){0,2})', tag)` (and the filter
  regex `v?\d+(\.\d+){0,2}`, which accepts exactly the same tags, and the
  major capture `v?(\d+)`).  Python `re.match` anchors at the start only, so
  these are prefix matches.  `\d` is modelled as an ASCII digit.
* `sortDesc` models `sorted(versions, key=..., reverse=True)`: Python's sort
  is stable and `reverse=True` keeps the original order of equal keys, which
  is exactly what the insertion sort below does.
* `dedupLoop` models the `seen_versions` loop of lines 36-42.
* `resolveRepo` models the repository-path dispatch of lines 28-32, where
  `image.split("/")` unpacked into two names raises `ValueError` (modelled as
  `none`) unless the split has exactly two parts.
* `fetchAllPages` models the pagination loop of `_fetch_and_parse_tags`
  (lines 57-65) over the sequence of pages the endpoint serves, a page being
  its extracted `results` names plus its `next` cursor.
* `mainRun` models the file handling and reconciliation loop of `main`
  (lines 134-169): the snapshot file is created empty when absent, each
  completed fetch result is reconciled against the snapshot read at start,
  and the merged document is written once at the end when non-empty.  The
  file is modelled at the JSON-object level (`none` = file absent) together
  with the list of write operations performed, in order.
-/

namespace DockerImageScraper

/-- A tag record `{'version': ..., 'major': ...}` as built on line 35. -/
structure TagRec where
  version : String
  major : String
deriving DecidableEq

/-- Helper constructor for concrete tag records. -/
def mkTag (v m : String) : TagRec :=
  { version := v, major := m }

/-- Core of the version regexes: on a string already stripped of the optional
leading `v`, greedily take `\d+(\.\d+){0,2}` and return the captured version
characters together with the leading numeric group (the `major` capture).
Returns `none` when the string does not start with a digit. -/
def matchCore (s : List Char) : Option (List Char × List Char) :=
  let d1 := s.takeWhile Char.isDigit
  if d1.isEmpty then none
  else
    let r1 := s.dropWhile Char.isDigit
    match r1 with
    | '.' :: t1 =>
      let d2 := t1.takeWhile Char.isDigit
      if d2.isEmpty then some (d1, d1)
      else
        let r2 := t1.dropWhile Char.isDigit
        match r2 with
        | '.' :: t2 =>
          let d3 := t2.takeWhile Char.isDigit
          if d3.isEmpty then some (d1 ++ '.' :: d2, d1)
          else some (d1 ++ '.' :: d2 ++ '.' :: d3, d1)
        | _ => some (d1 ++ '.' :: d2, d1)
    | _ => some (d1, d1)

/-- Model of the regex work on lines 34-35: `re.match(r'v?\d+(\.\d+){0,2}')`
as the success test, and on success the `{'version', 'major'}` record from
the captures of `r'v?(\d+(\.\d+){0,2})'` and `r'v?(\d+)'`.  The optional `v`
is consumed when present; if no digits follow it the match fails, exactly as
the regex backtracking would. -/
def parseTag (tag : String) : Option TagRec :=
  let chars := tag.toList
  let core :=
    match chars with
    | 'v' :: rest => matchCore rest
    | _ => matchCore chars
  core.map (fun p => { version := p.1.asString, major := p.2.asString })

/-- Python `str.split(sep)` for a one-character separator. -/
def splitOnChar (sep : Char) : List Char → List (List Char)
  | [] => [[]]
  | c :: rest =>
    if c = sep then [] :: splitOnChar sep rest
    else
      match splitOnChar sep rest with
      | [] => [[c]]
      | p :: ps => (c :: p) :: ps

/-- Python `int` on a non-empty string of ASCII digits. -/
def natOfDigits (l : List Char) : Nat :=
  l.foldl (fun n c => n * 10 + (c.toNat - 48)) 0

/-- The sort key of line 39: `tuple(map(int, v['version'].split('.')))`. -/
def verKey (v : String) : List Nat :=
  (splitOnChar '.' v.toList).map natOfDigits

/-- Python tuple comparison `<` on the numeric version tuples: lexicographic,
with a strict prefix comparing smaller. -/
def keyLt : List Nat → List Nat → Bool
  | [], [] => false
  | [], _ :: _ => true
  | _ :: _, [] => false
  | a :: as, b :: bs =>
    if a < b then true
    else if b < a then false
    else keyLt as bs

/-- Stable insertion step for the descending sort: an element moves past
exactly the entries whose key is strictly greater, so among equal keys the
element inserted earlier keeps its position. -/
def insertDesc (x : TagRec) : List TagRec → List TagRec
  | [] => [x]
  | y :: ys =>
    if keyLt (verKey x.version) (verKey y.version) then y :: insertDesc x ys
    else x :: y :: ys

/-- Model of `sorted(versions, key=lambda v: tuple(...), reverse=True)` on
line 39: a stable descending sort by `verKey`. -/
def sortDesc : List TagRec → List TagRec
  | [] => []
  | x :: xs => insertDesc x (sortDesc xs)

/-- The deduplication loop of lines 36-42: keep a record only when its
version string has not been seen yet. -/
def dedupLoop : List TagRec → List String → List TagRec
  | [], _ => []
  | r :: rs, seen =>
    if r.version ∈ seen then dedupLoop rs seen
    else r :: dedupLoop rs (r.version :: seen)

/-- Line 34: `version_tags`, the raw tag names whose start matches the
version regex. -/
def versionTags (tags : List String) : List String :=
  tags.filter (fun t => (parseTag t).isSome)

/-- Line 35: the `{'version', 'major'}` records of the matching tags, in
original fetch order. -/
def versionsOf (tags : List String) : List TagRec :=
  (versionTags tags).filterMap parseTag

/-- Lines 36-42: the sorted, deduplicated records (`unique_versions`). -/
def uniqueVersions (tags : List String) : List TagRec :=
  dedupLoop (sortDesc (versionsOf tags)) []

/-- Lines 34-44: the pure tail of `get_docker_image_tags`, from raw fetched
tag names to the returned list (`unique_versions[:10]`). -/
def selectTags (tags : List String) : List TagRec :=
  (uniqueVersions tags).take 10

/-- Which repository path a fetch uses: `username/repo_name` via
`get_docker_image_tags_specific_repo`, or `library/<image>` via
`get_docker_image_tags_official_repo`. -/
inductive RepoPath where
  | specific : List Char → List Char → RepoPath
  | official : List Char → RepoPath
deriving DecidableEq

/-- Lines 28-32: dispatch on `"/" in image`.  When a slash is present,
`username, repo_name = image.split("/")` succeeds only for exactly two
parts; any other arity raises `ValueError`, modelled as `none`. -/
def resolveRepo (image : List Char) : Option RepoPath :=
  if '/' ∈ image then
    match splitOnChar '/' image with
    | [u, r] => some (RepoPath.specific u r)
    | _ => none
  else some (RepoPath.official image)

/-- The listing URL built for a resolved repository path (lines 48 and 53). -/
def repoUrl : RepoPath → List Char
  | RepoPath.specific u r =>
    ("https://registry.hub.docker.com/v2/repositories/").toList ++
      u ++ '/' :: r ++ ("/tags?page_size=1000").toList
  | RepoPath.official i =>
    ("https://registry.hub.docker.com/v2/repositories/library/").toList ++
      i ++ ("/tags?page_size=1000").toList

/-- One page served by the tag-listing endpoint: the extracted `results`
names (`[result["name"] for result in data["results"]]`, line 63) and the
`next` cursor (`data.get("next")`, line 64; `none` models JSON null or an
absent key). -/
structure Page where
  results : List String
  next : Option String
deriving DecidableEq

/-- The pagination loop of `_fetch_and_parse_tags` (lines 57-65) run over
the sequence of pages the endpoint serves: accumulate the current page's
names and continue while the `next` cursor is truthy (Python `while url:`,
so an empty-string cursor also stops the loop). -/
def fetchAllPages : List Page → List String
  | [] => []
  | p :: rest =>
    p.results ++
      (match p.next with
       | none => []
       | some u => if u = ("") then [] else fetchAllPages rest)

/-- A well-formed page chain: every page except the last carries a truthy
`next` cursor and the last page carries none. -/
def chainOk : List Page → Bool
  | [] => true
  | p :: rest =>
    match rest with
    | [] => p.next.isNone
    | _ :: _ =>
      (match p.next with
       | none => false
       | some u => decide (u ≠ (""))) && chainOk rest

/-- The snapshot document: a Python dict from image name to its stored tag
records, as an insertion-ordered association list with unique keys. -/
abbrev Snapshot := List (String × List TagRec)

/-- Python `d.get(k)` on the snapshot dict. -/
def dictGet (d : Snapshot) (k : String) : Option (List TagRec) :=
  (d.find? (fun p => decide (p.1 = k))).map (fun p => p.2)

/-- Python `d[k] = v`: overwrite in place when the key exists, else append. -/
def dictSet (d : Snapshot) (k : String) (v : List TagRec) : Snapshot :=
  if d.any (fun p => decide (p.1 = k)) then
    d.map (fun p => if p.1 = k then (k, v) else p)
  else d ++ [(k, v)]

/-- Python `d.update(e)`: apply every entry of `e` to `d`, left to right. -/
def dictUpdate (d e : Snapshot) : Snapshot :=
  e.foldl (fun acc p => dictSet acc p.1 p.2) d

/-- The key sequence of a snapshot dict. -/
def dictKeys (d : Snapshot) : List String :=
  d.map Prod.fst

/-- Lines 161-162: the newer tags, i.e. the freshly selected records whose
version string does not occur among the currently stored version strings. -/
def newerOf (current new : List TagRec) : List TagRec :=
  let currentVersions := current.map TagRec.version
  new.filter (fun t => decide (t.version ∉ currentVersions))

/-- One iteration of the `as_completed` loop of lines 152-164 acting on the
`updated_tags` dict: a failed fetch (`none`) is skipped via `continue`; a
successful fetch stores `newer_tags + current_tags` when `newer_tags` is
non-empty.  `current_tags` always comes from the snapshot read at start. -/
def reconStep (allTags : Snapshot) (updated : Snapshot)
    (r : String × Option (List TagRec)) : Snapshot :=
  match r.2 with
  | none => updated
  | some newTags =>
    let current := (dictGet allTags r.1).getD []
    let newer := newerOf current newTags
    if newer.isEmpty then updated else dictSet updated r.1 (newer ++ current)

/-- The whole reconciliation loop over the per-image fetch results, given in
completion order; `none` marks an image whose fetch raised. -/
def processResults (allTags : Snapshot)
    (results : List (String × Option (List TagRec))) : Snapshot :=
  results.foldl (reconStep allTags) []

/-- Outcome of one run: the final state of `all_tags.json` (`none` = absent)
and the contents of every write performed on it, in order. -/
structure RunOut where
  file : Option Snapshot
  writes : List Snapshot
deriving DecidableEq

/-- Model of `main` (lines 134-169) for one run: create the snapshot file
with an empty document when absent (lines 142-144), read it (lines 146-147),
reconcile every completed fetch result (lines 152-164), and when
`updated_tags` is non-empty, merge it into the document and write the file
once (lines 166-169). -/
def mainRun (file0 : Option Snapshot)
    (results : List (String × Option (List TagRec))) : RunOut :=
  let createWrites : List Snapshot :=
    match file0 with
    | none => [[]]
    | some _ => []
  let allTags : Snapshot := file0.getD []
  let updated := processResults allTags results
  if updated.isEmpty then
    { file := some allTags, writes := createWrites }
  else
    let merged := dictUpdate allTags updated
    { file := some merged, writes := createWrites ++ [merged] }

/-- Spec-side definition, written from the spec's words for claim C3: a tag
list is in descending order when every entry's numeric version tuple is not
smaller than its successor's. -/
def specSortedDesc : List TagRec → Bool
  | [] => true
  | [_] => true
  | a :: b :: rest =>
    !(keyLt (verKey a.version) (verKey b.version)) && specSortedDesc (b :: rest)

/-! Helper lemmas about `splitOnChar`. -/

/-- Splitting a list that does not contain the separator yields that list. -/
theorem splitOnChar_of_not_mem (sep : Char) (l : List Char) (h : sep ∉ l) :
    splitOnChar sep l = [l] := by
  induction l with
  | nil => rfl
  | cons c rest ih =>
    have hc : ¬(c = sep) := fun hc => h (hc ▸ List.mem_cons_self c rest)
    have hr : sep ∉ rest := fun hr => h (List.mem_cons_of_mem _ hr)
    simp [splitOnChar, hc, ih hr]

/-- Splitting around a single separator occurrence peels off the part before
it. -/
theorem splitOnChar_append (sep : Char) (u r : List Char) (h : sep ∉ u) :
    splitOnChar sep (u ++ sep :: r) = u :: splitOnChar sep r := by
  induction u with
  | nil => simp [splitOnChar]
  | cons c u' ih =>
    have hc : ¬(c = sep) := fun hc => h (hc ▸ List.mem_cons_self c u')
    have hu : sep ∉ u' := fun hu => h (List.mem_cons_of_mem _ hu)
    simp [splitOnChar, hc, ih hu]

/-- C1: the Reconciler computes `newer` as exactly the freshly selected
records whose version string does not occur among the stored version
strings, and on the spec's concrete example (current snapshot mapping
`redis` to version `7.0`, fresh selection `[7.2, 7.0]`) it stores the
merged list `[7.2, 7.0]`, i.e. `newer` prepended to `current`. -/
theorem c1_reconciler_newer_and_merge :
    (∀ (current new : List TagRec) (t : TagRec),
        t ∈ newerOf current new ↔
          t ∈ new ∧ t.version ∉ current.map TagRec.version) ∧
      processResults [(("redis"), [mkTag ("7.0") ("7")])]
          [(("redis"), some [mkTag ("7.2") ("7"), mkTag ("7.0") ("7")])]
        = [(("redis"), [mkTag ("7.2") ("7"), mkTag ("7.0") ("7")])] := by
  constructor
  · intro current new t
    simp [newerOf, List.mem_filter]
  · decide

/-- C2: on the tag set of the spec's example the Version Filter/Selector
returns exactly the records for versions `2.0`, `1.10.0`, `1.2.0`, in this
descending numeric-tuple order: `latest` never matches the version regex and
`1.2.0-rc1` contributes no record of its own, while `1.10.0` sorts above
`1.2.0` because 10 > 2 numerically. -/
theorem c2_filter_sort_example :
    selectTags [("1.2.0"), ("1.10.0"), ("v2.0"), ("latest"), ("1.2.0-rc1")]
      = [mkTag ("2.0") ("2"), mkTag ("1.10.0") ("1"), mkTag ("1.2.0") ("1")] := by
  decide

/-- C3 counterexample: a reachable snapshot violates the descending-order
invariant.  A first run (starting with no snapshot file) stores version
`2.0` for image `img`; a second run fetches tags `3.0` and `1.0`, both newer
relative to the snapshot, and prepends them without re-sorting, leaving the
stored list `[3.0, 1.0, 2.0]`, which is not descending. -/
theorem c3_counterexample :
    (mainRun (mainRun none [(("img"), some (selectTags [("2.0")]))]).file
        [(("img"), some (selectTags [("3.0"), ("1.0")]))]).file
      = some [(("img"),
          [mkTag ("3.0") ("3"), mkTag ("1.0") ("1"), mkTag ("2.0") ("2")])] ∧
      specSortedDesc
          [mkTag ("3.0") ("3"), mkTag ("1.0") ("1"), mkTag ("2.0") ("2")]
        = false := by
  decide

/-- C4 counterexample: a run that starts with no snapshot file and in which
no image yields any newer tag (`img`'s only tag, `latest`, never matches the
version regex, so its selection is empty) still writes the file: lines
142-144 create `all_tags.json` with an empty document, so a write occurs
and the file's contents change from absent to the empty object. -/
theorem c4_counterexample :
    newerOf [] (selectTags [("latest")]) = [] ∧
      (mainRun none [(("img"), some (selectTags [("latest")]))]).writes ≠ [] ∧
      (mainRun none [(("img"), some (selectTags [("latest")]))]).file ≠ none := by
  decide

/-- Helper: when every successfully fetched result yields no newer tags,
the reconciliation loop leaves `updated_tags` empty. -/
theorem processResults_eq_nil (a : Snapshot) :
    ∀ results : List (String × Option (List TagRec)),
      (∀ r ∈ results,
          newerOf ((dictGet a r.1).getD []) (r.2.getD []) = []) →
      processResults a results = [] := by
  intro results
  induction results with
  | nil => intro _; rfl
  | cons r rest ih =>
    intro h
    have hstep : reconStep a [] r = [] := by
      rcases r with ⟨img, res⟩
      cases res with
      | none => rfl
      | some tags =>
        have hr := h ⟨img, some tags⟩ (List.mem_cons_self _ _)
        simp only [Option.getD_some] at hr
        simp [reconStep, hr]
    simp only [processResults, List.foldl_cons, hstep]
    exact ih (fun x hx => h x (List.mem_cons_of_mem _ hx))

/-- C4 (amended): provided the snapshot file exists at run start, a run in
which no image yields any newer tag performs no write and leaves the file's
contents unchanged. -/
theorem c4_no_newer_no_write :
    ∀ (s : Snapshot) (results : List (String × Option (List TagRec))),
      (∀ r ∈ results,
          newerOf ((dictGet s r.1).getD []) (r.2.getD []) = []) →
      mainRun (some s) results = { file := some s, writes := [] } := by
  intro s results h
  have hupd : processResults s results = [] := processResults_eq_nil s results h
  simp [mainRun, hupd]

/-- Witness for C4 (amended): with a snapshot already mapping `redis` to
version `7.0` and a fetch returning only version `7.0`, nothing is newer and
the run neither writes nor changes the file. -/
theorem c4_witness :
    (∀ r ∈ [(("redis"), some [mkTag ("7.0") ("7")])],
        newerOf ((dictGet [(("redis"), [mkTag ("7.0") ("7")])] r.1).getD [])
          (r.2.getD []) = []) ∧
      mainRun (some [(("redis"), [mkTag ("7.0") ("7")])])
          [(("redis"), some [mkTag ("7.0") ("7")])]
        = { file := some [(("redis"), [mkTag ("7.0") ("7")])], writes := [] } :=
  ⟨by decide, c4_no_newer_no_write _ _ (by decide)⟩

/-- C5 counterexample: a full browse URL is not decomposed into owner and
name.  On the URL form, `image.split("/")` has six parts, the two-name
unpacking on line 29 raises `ValueError`, and no repository path at all is
resolved for the fetch. -/
theorem c5_counterexample :
    resolveRepo (String.toList ("https://hub.docker.com/r/owner/name")) = none ∧
      ∀ p : RepoPath,
        resolveRepo (String.toList ("https://hub.docker.com/r/owner/name"))
          ≠ some p := by
  have h0 : resolveRepo (String.toList ("https://hub.docker.com/r/owner/name"))
      = none := by decide
  exact ⟨h0, fun p h => by rw [h0] at h; exact Option.noConfusion h⟩

/-- C5 (amended): image references containing a slash are decomposed only
when the split on `/` yields exactly two parts; any reference with more than
one slash — in particular every full browse URL — makes the fetch for that
image fail instead of being decomposed. -/
theorem c5_url_fetch_fails :
    ∀ image : List Char,
      '/' ∈ image → (splitOnChar '/' image).length ≠ 2 →
      resolveRepo image = none := by
  intro image h1 h2
  simp only [resolveRepo, if_pos h1]
  cases hsp : splitOnChar '/' image with
  | nil => rfl
  | cons a tail =>
    cases tail with
    | nil => rfl
    | cons b tail2 =>
      cases tail2 with
      | nil =>
        exact absurd (show (splitOnChar '/' image).length = 2 by rw [hsp]; rfl) h2
      | cons c rest => rfl

/-- Witness for C5 (amended): the browse URL splits into six parts, so its
fetch resolves no repository path. -/
theorem c5_witness :
    '/' ∈ String.toList ("https://hub.docker.com/r/owner/name") ∧
      (splitOnChar '/' (String.toList ("https://hub.docker.com/r/owner/name"))).length ≠ 2 ∧
      resolveRepo (String.toList ("https://hub.docker.com/r/owner/name")) = none :=
  ⟨by decide, by decide,
    c5_url_fetch_fails _ (by decide) (by decide)⟩

/-- C6: a namespaced reference `owner/name` (one slash) resolves to the
specific `owner/name` repository path, never the official-library path, and
a bare name (no slash) resolves to the `library/<name>` path. -/
theorem c6_repo_path_dispatch :
    (∀ u r : List Char, '/' ∉ u → '/' ∉ r →
        resolveRepo (u ++ '/' :: r) = some (RepoPath.specific u r)) ∧
      ∀ image : List Char, '/' ∉ image →
        resolveRepo image = some (RepoPath.official image) := by
  constructor
  · intro u r hu hr
    have hmem : '/' ∈ u ++ '/' :: r :=
      List.mem_append_right u (List.mem_cons_self _ _)
    simp only [resolveRepo, if_pos hmem, splitOnChar_append '/' u r hu,
      splitOnChar_of_not_mem '/' r hr]
  · intro image h
    simp [resolveRepo, h]

/-- Witness for C6: `bitnami/redis` resolves to the specific path with owner
`bitnami` and name `redis`, while bare `redis` resolves to the official
library path. -/
theorem c6_witness :
    resolveRepo (String.toList ("bitnami/redis"))
        = some (RepoPath.specific (String.toList ("bitnami"))
            (String.toList ("redis"))) ∧
      resolveRepo (String.toList ("redis"))
        = some (RepoPath.official (String.toList ("redis"))) := by
  constructor
  · have h := c6_repo_path_dispatch.1 (String.toList ("bitnami"))
      (String.toList ("redis")) (by decide) (by decide)
    rw [show String.toList ("bitnami/redis")
        = String.toList ("bitnami") ++ '/' :: String.toList ("redis") by decide]
    exact h
  · exact c6_repo_path_dispatch.2 _ (by decide)

/-- C7: over a well-formed page chain (every page but the last carries a
truthy `next` cursor, the last carries none) the pagination loop keeps
following `next` and returns the concatenation of all pages' `results`
names in page order. -/
theorem c7_pagination_accumulates :
    ∀ pages : List Page, chainOk pages = true →
      fetchAllPages pages = (pages.map Page.results).flatten := by
  intro pages
  induction pages with
  | nil => intro _; rfl
  | cons p rest ih =>
    intro h
    cases rest with
    | nil =>
      have hn : p.next = none := by
        simp only [chainOk] at h
        exact Option.isNone_iff_eq_none.mp h
      simp [fetchAllPages, hn]
    | cons q rest2 =>
      simp only [chainOk, Bool.and_eq_true] at h
      obtain ⟨h1, h2⟩ := h
      cases hpn : p.next with
      | none => rw [hpn] at h1; exact absurd h1 (by simp)
      | some u =>
        rw [hpn] at h1
        have hu : ¬(u = ("")) := by simpa using h1
        show p.results ++
            (match p.next with
             | none => []
             | some u => if u = ("") then [] else fetchAllPages (q :: rest2))
          = _
        rw [hpn]
        show p.results ++ (if u = ("") then [] else fetchAllPages (q :: rest2)) = _
        rw [if_neg hu, ih h2]
        simp

/-- Witness for C7: a two-page chain whose first page points at the second
yields the names of both pages, in order. -/
theorem c7_witness :
    chainOk [(⟨[("a")], some ("u2")⟩ : Page), ⟨[("b")], none⟩] = true ∧
      fetchAllPages [(⟨[("a")], some ("u2")⟩ : Page), ⟨[("b")], none⟩]
        = (([(⟨[("a")], some ("u2")⟩ : Page), ⟨[("b")], none⟩].map
            Page.results)).flatten :=
  ⟨by decide, c7_pagination_accumulates _ (by decide)⟩

/-! Helper lemmas about the dict model. -/

/-- Reading a key stored at the head of the dict. -/
theorem dictGet_cons_eq (p : String × List TagRec) (rest : Snapshot) (k : String)
    (h : p.1 = k) : dictGet (p :: rest) k = some p.2 := by
  simp [dictGet, List.find?_cons, h]

/-- Reading a key different from the head key skips the head. -/
theorem dictGet_cons_ne (p : String × List TagRec) (rest : Snapshot) (k : String)
    (h : ¬(p.1 = k)) : dictGet (p :: rest) k = dictGet rest k := by
  simp [dictGet, List.find?_cons, h]

/-- Assignment distributes over a non-matching head entry. -/
theorem dictSet_cons_ne (p : String × List TagRec) (rest : Snapshot)
    (k : String) (v : List TagRec) (h : ¬(p.1 = k)) :
    dictSet (p :: rest) k v = p :: dictSet rest k v := by
  by_cases hany : rest.any (fun q => decide (q.1 = k)) = true
  · simp [dictSet, List.any_cons, h, hany]
  · simp [dictSet, List.any_cons, h, hany]

/-- Assignment on a matching head entry overwrites it in place. -/
theorem dictSet_cons_eq (p : String × List TagRec) (rest : Snapshot)
    (k : String) (v : List TagRec) (h : p.1 = k) :
    dictSet (p :: rest) k v
      = (k, v) :: rest.map (fun q => if q.1 = k then (k, v) else q) := by
  simp [dictSet, List.any_cons, h]

/-- Reading the key just assigned returns the assigned value. -/
theorem dictGet_dictSet_self (d : Snapshot) (k : String) (v : List TagRec) :
    dictGet (dictSet d k v) k = some v := by
  induction d with
  | nil => simp [dictGet, dictSet, List.find?]
  | cons p rest ih =>
    by_cases hp : p.1 = k
    · rw [dictSet_cons_eq p rest k v hp]
      exact dictGet_cons_eq _ _ _ rfl
    · rw [dictSet_cons_ne p rest k v hp, dictGet_cons_ne _ _ _ hp]
      exact ih

/-- Overwriting entries for key `k` does not affect reads of another key. -/
theorem dictGet_map_overwrite_ne (k : String) (v : List TagRec) (k' : String)
    (h : ¬(k' = k)) :
    ∀ rest : Snapshot,
      dictGet (rest.map (fun q => if q.1 = k then (k, v) else q)) k'
        = dictGet rest k' := by
  intro rest
  induction rest with
  | nil => rfl
  | cons q qs ih =>
    by_cases hq : q.1 = k
    · rw [List.map_cons, if_pos hq]
      rw [dictGet_cons_ne _ _ _ (fun hh => h hh.symm)]
      rw [dictGet_cons_ne q qs k' (fun hh => h (hq ▸ hh).symm)]
      · exact ih
    · rw [List.map_cons, if_neg hq]
      by_cases hq' : q.1 = k'
      · rw [dictGet_cons_eq _ _ _ hq', dictGet_cons_eq _ _ _ hq']
      · rw [dictGet_cons_ne _ _ _ hq', dictGet_cons_ne _ _ _ hq']
        exact ih

/-- Reading a key different from the assigned one is unchanged. -/
theorem dictGet_dictSet_ne (d : Snapshot) (k : String) (v : List TagRec)
    (k' : String) (h : ¬(k' = k)) :
    dictGet (dictSet d k v) k' = dictGet d k' := by
  induction d with
  | nil =>
    have hk : ¬(k = k') := fun hh => h hh.symm
    simp [dictGet, dictSet, List.find?, hk]
  | cons p rest ih =>
    by_cases hp : p.1 = k
    · rw [dictSet_cons_eq p rest k v hp]
      rw [dictGet_cons_ne _ _ _ (fun hh => h hh.symm)]
      rw [dictGet_map_overwrite_ne k v k' h rest]
      rw [dictGet_cons_ne p rest k' (fun hh => h (hp ▸ hh).symm)]
    · rw [dictSet_cons_ne p rest k v hp]
      by_cases hq : p.1 = k'
      · rw [dictGet_cons_eq _ _ _ hq, dictGet_cons_eq _ _ _ hq]
      · rw [dictGet_cons_ne _ _ _ hq, dictGet_cons_ne _ _ _ hq]
        exact ih

/-- Assignment preserves key uniqueness. -/
theorem nodup_dictKeys_dictSet (d : Snapshot) (k : String) (v : List TagRec)
    (h : List.Nodup (dictKeys d)) : List.Nodup (dictKeys (dictSet d k v)) := by
  by_cases hany : d.any (fun q => decide (q.1 = k)) = true
  · have hkeys : dictKeys (d.map (fun q => if q.1 = k then (k, v) else q))
        = dictKeys d := by
      simp only [dictKeys, List.map_map]
      apply List.map_congr_left
      intro q _
      by_cases hq : q.1 = k <;> simp [hq]
    simp only [dictSet, if_pos hany, hkeys]
    exact h
  · have hk : k ∉ dictKeys d := by
      intro hmem
      rcases List.mem_map.mp hmem with ⟨q, hq, hqk⟩
      exact hany (List.any_eq_true.mpr ⟨q, hq, by simp [hqk]⟩)
    simp only [dictSet, if_neg hany]
    rw [show dictKeys (d ++ [(k, v)]) = dictKeys d ++ [k] from by simp [dictKeys]]
    rw [List.nodup_append]
    refine ⟨h, List.nodup_singleton k, ?_⟩
    intro a ha hb
    rw [List.mem_singleton] at hb
    exact hk (hb ▸ ha)

/-- Updating with entries that do not contain key `k` leaves reads of `k`
unchanged. -/
theorem dictGet_dictUpdate_not_mem (k : String) :
    ∀ (e d : Snapshot), k ∉ dictKeys e →
      dictGet (dictUpdate d e) k = dictGet d k := by
  intro e
  induction e with
  | nil => intro d _; rfl
  | cons p rest ih =>
    intro d h
    have h1 : ¬(k = p.1) ∧ k ∉ dictKeys rest := by
      simpa [dictKeys, List.mem_cons, not_or] using h
    show dictGet (dictUpdate (dictSet d p.1 p.2) rest) k = dictGet d k
    rw [ih _ h1.2, dictGet_dictSet_ne _ _ _ _ h1.1]

/-- Updating with key-unique entries makes their values win on shared keys. -/
theorem dictGet_dictUpdate_mem (k : String) :
    ∀ (e d : Snapshot) (v : List TagRec),
      List.Nodup (dictKeys e) → dictGet e k = some v →
      dictGet (dictUpdate d e) k = some v := by
  intro e
  induction e with
  | nil =>
    intro d v _ h
    exact absurd h (by simp [dictGet])
  | cons p rest ih =>
    intro d v hnd hget
    have hnd' : p.1 ∉ dictKeys rest ∧ List.Nodup (dictKeys rest) := by
      simpa [dictKeys] using hnd
    by_cases hp : p.1 = k
    · subst hp
      rw [dictGet_cons_eq p rest p.1 rfl] at hget
      show dictGet (dictUpdate (dictSet d p.1 p.2) rest) p.1 = some v
      rw [dictGet_dictUpdate_not_mem p.1 rest _ hnd'.1, dictGet_dictSet_self]
      exact hget
    · rw [dictGet_cons_ne p rest k hp] at hget
      exact ih (dictSet d p.1 p.2) v hnd'.2 hget

/-! Helper lemmas about the reconciliation loop. -/

/-- Failed fetch results are skipped: the loop computes the same
`updated_tags` as if they were never delivered. -/
theorem foldl_reconStep_filter (a : Snapshot) :
    ∀ (results : List (String × Option (List TagRec))) (acc : Snapshot),
      List.foldl (reconStep a) acc (results.filter (fun r => r.2.isSome))
        = List.foldl (reconStep a) acc results := by
  intro results
  induction results with
  | nil => intro acc; rfl
  | cons r rest ih =>
    intro acc
    rcases r with ⟨name, res⟩
    cases res with
    | none =>
      simp only [List.filter_cons, Option.isSome_none, List.foldl_cons]
      exact ih acc
    | some tags =>
      simp only [List.filter_cons, Option.isSome_some, List.foldl_cons]
      exact ih _

/-- Images never mentioned in the remaining results keep their accumulator
entry. -/
theorem dictGet_foldl_not_mem (a : Snapshot) (img : String) :
    ∀ (results : List (String × Option (List TagRec))) (acc : Snapshot),
      img ∉ results.map Prod.fst →
      dictGet (List.foldl (reconStep a) acc results) img = dictGet acc img := by
  intro results
  induction results with
  | nil => intro acc _; rfl
  | cons r rest ih =>
    intro acc h
    have h1 : ¬(img = r.1) ∧ img ∉ rest.map Prod.fst := by
      simpa [List.mem_cons, not_or] using h
    rw [List.foldl_cons, ih _ h1.2]
    rcases r with ⟨name, res⟩
    cases res with
    | none => rfl
    | some tags =>
      show dictGet
          (if (newerOf ((dictGet a name).getD []) tags).isEmpty
           then acc
           else dictSet acc name
             (newerOf ((dictGet a name).getD []) tags
               ++ (dictGet a name).getD [])) img
        = dictGet acc img
      split
      · rfl
      · exact dictGet_dictSet_ne _ _ _ _ h1.1

/-- The accumulator's keys stay unique through the reconciliation loop. -/
theorem nodup_dictKeys_foldl (a : Snapshot) :
    ∀ (results : List (String × Option (List TagRec))) (acc : Snapshot),
      List.Nodup (dictKeys acc) →
      List.Nodup (dictKeys (List.foldl (reconStep a) acc results)) := by
  intro results
  induction results with
  | nil => intro acc h; exact h
  | cons r rest ih =>
    intro acc h
    rw [List.foldl_cons]
    apply ih
    rcases r with ⟨name, res⟩
    cases res with
    | none => exact h
    | some tags =>
      show List.Nodup (dictKeys
        (if (newerOf ((dictGet a name).getD []) tags).isEmpty
         then acc
         else dictSet acc name
           (newerOf ((dictGet a name).getD []) tags
             ++ (dictGet a name).getD [])))
      split
      · exact h
      · exact nodup_dictKeys_dictSet _ _ _ h

/-- The `updated_tags` dict computed by the loop has unique keys. -/
theorem nodup_dictKeys_processResults (a : Snapshot)
    (results : List (String × Option (List TagRec))) :
    List.Nodup (dictKeys (processResults a results)) :=
  nodup_dictKeys_foldl a results [] (List.nodup_nil)

/-- C8: in a run whose completion-order results contain failed fetches, the
run behaves exactly as if the failing images were never delivered (the run
is not aborted and failures change nothing else), and every successfully
fetched image that occurs once and yields newer tags has its newer tags
prepended to its current list in the merged document, which is both the
final file contents and the contents of a write performed by the run. -/
theorem c8_fetch_failure_isolated :
    ∀ (file0 : Option Snapshot)
      (results pre post : List (String × Option (List TagRec)))
      (img : String) (tags : List TagRec),
      mainRun file0 results
          = mainRun file0 (results.filter (fun r => r.2.isSome)) ∧
        (results = pre ++ (img, some tags) :: post →
          img ∉ pre.map Prod.fst →
          img ∉ post.map Prod.fst →
          newerOf ((dictGet (file0.getD []) img).getD []) tags ≠ [] →
          ∃ m, (mainRun file0 results).file = some m ∧
            m ∈ (mainRun file0 results).writes ∧
            dictGet m img
              = some (newerOf ((dictGet (file0.getD []) img).getD []) tags
                  ++ (dictGet (file0.getD []) img).getD [])) := by
  intro file0 results pre post img tags
  constructor
  · simp only [mainRun, processResults, foldl_reconStep_filter]
  · intro hres hpre hpost hnew
    have hupd : dictGet (processResults (file0.getD []) results) img
        = some (newerOf ((dictGet (file0.getD []) img).getD []) tags
            ++ (dictGet (file0.getD []) img).getD []) := by
      subst hres
      rw [processResults, List.foldl_append, List.foldl_cons]
      rw [dictGet_foldl_not_mem (file0.getD []) img post _ hpost]
      have hne : (newerOf ((dictGet (file0.getD []) img).getD []) tags).isEmpty
          = false := by
        cases hn : newerOf ((dictGet (file0.getD []) img).getD []) tags with
        | nil => exact absurd hn hnew
        | cons x xs => rfl
      show dictGet
          (if (newerOf ((dictGet (file0.getD []) img).getD []) tags).isEmpty
           then List.foldl (reconStep (file0.getD [])) [] pre
           else dictSet (List.foldl (reconStep (file0.getD [])) [] pre) img
             (newerOf ((dictGet (file0.getD []) img).getD []) tags
               ++ (dictGet (file0.getD []) img).getD [])) img
        = _
      rw [hne]
      show dictGet (dictSet (List.foldl (reconStep (file0.getD [])) [] pre) img
          (newerOf ((dictGet (file0.getD []) img).getD []) tags
            ++ (dictGet (file0.getD []) img).getD [])) img = _
      exact dictGet_dictSet_self _ _ _
    have hne2 : (processResults (file0.getD []) results).isEmpty = false := by
      cases hp : processResults (file0.getD []) results with
      | nil => rw [hp] at hupd; exact absurd hupd (by simp [dictGet])
      | cons x xs => rfl
    refine ⟨dictUpdate (file0.getD []) (processResults (file0.getD []) results),
      ?_, ?_, ?_⟩
    · simp [mainRun, hne2]
    · simp [mainRun, hne2]
    · exact dictGet_dictUpdate_mem img
        (processResults (file0.getD []) results) (file0.getD []) _
        (nodup_dictKeys_processResults (file0.getD []) results) hupd

/-- Witness for C8: alongside a failed fetch for image `bad`, image `redis`
succeeds with the new version `7.2` and gets merged and persisted. -/
theorem c8_witness :
    ∃ m, (mainRun (some [])
          [(("bad"), none), (("redis"), some [mkTag ("7.2") ("7")])]).file
        = some m ∧
      m ∈ (mainRun (some [])
          [(("bad"), none), (("redis"), some [mkTag ("7.2") ("7")])]).writes ∧
      dictGet m ("redis") = some [mkTag ("7.2") ("7")] := by
  have h := (c8_fetch_failure_isolated (some [])
      [(("bad"), none), (("redis"), some [mkTag ("7.2") ("7")])]
      [(("bad"), none)] [] ("redis") [mkTag ("7.2") ("7")]).2
    rfl (by decide) (by decide) (by decide)
  obtain ⟨m, h1, h2, h3⟩ := h
  exact ⟨m, h1, h2, by rw [h3]; decide⟩

/-! Helper lemmas about the descending sort and the deduplication loop. -/

/-- The numeric tuple order is irreflexive. -/
theorem keyLt_irrefl : ∀ k : List Nat, keyLt k k = false := by
  intro k
  induction k with
  | nil => rfl
  | cons a as ih => simp [keyLt, ih]

/-- Inserting an element touches only its own key class: elements of other
key classes keep their relative order, and within its own class the new
element lands in front (it only moves past strictly greater keys). -/
theorem filter_insertDesc (k : List Nat) (x : TagRec) :
    ∀ s : List TagRec,
      List.filter (fun r => decide (verKey r.version = k)) (insertDesc x s)
        = if verKey x.version = k
          then x :: List.filter (fun r => decide (verKey r.version = k)) s
          else List.filter (fun r => decide (verKey r.version = k)) s := by
  intro s
  induction s with
  | nil =>
    by_cases hx : verKey x.version = k <;> simp [insertDesc, hx]
  | cons y ys ih =>
    by_cases hxy : keyLt (verKey x.version) (verKey y.version) = true
    · have hstep : insertDesc x (y :: ys) = y :: insertDesc x ys := by
        simp [insertDesc, hxy]
      rw [hstep]
      by_cases hy : verKey y.version = k
      · have hxk : ¬(verKey x.version = k) := by
          intro hxk
          rw [hxk.trans hy.symm, keyLt_irrefl] at hxy
          exact Bool.false_ne_true hxy
        simp only [List.filter_cons, ih]
        simp [hy, hxk]
      · simp only [List.filter_cons, ih]
        by_cases hxk : verKey x.version = k
        · simp [hy, hxk]
        · simp [hy, hxk]
    · have hstep : insertDesc x (y :: ys) = x :: y :: ys := by
        simp [insertDesc, hxy]
      rw [hstep]
      by_cases hxk : verKey x.version = k <;> simp [List.filter_cons, hxk]

/-- Stability of the descending sort, per key class: filtering any key class
out of the sorted list gives the same sequence as filtering the input. -/
theorem filter_sortDesc (k : List Nat) :
    ∀ l : List TagRec,
      List.filter (fun r => decide (verKey r.version = k)) (sortDesc l)
        = List.filter (fun r => decide (verKey r.version = k)) l := by
  intro l
  induction l with
  | nil => rfl
  | cons x xs ih =>
    show List.filter _ (insertDesc x (sortDesc xs)) = _
    rw [filter_insertDesc k x (sortDesc xs), List.filter_cons]
    by_cases hxk : verKey x.version = k <;> simp [hxk, ih]

/-- Stability per version string: records sharing one normalized version
share a sort key, so they also keep their relative (fetch) order. -/
theorem filter_version_sortDesc (v : String) (l : List TagRec) :
    List.filter (fun r => decide (r.version = v)) (sortDesc l)
      = List.filter (fun r => decide (r.version = v)) l := by
  have hsub : ∀ m : List TagRec,
      List.filter (fun r => decide (r.version = v)) m
        = List.filter (fun r => decide (r.version = v))
            (List.filter (fun r => decide (verKey r.version = verKey v)) m) := by
    intro m
    rw [List.filter_filter]
    apply List.filter_congr
    intro r _
    by_cases hr : r.version = v
    · simp [hr]
    · simp [hr]
  rw [hsub (sortDesc l), filter_sortDesc, ← hsub l]

/-- Finding the first match is reading the head of the filtered list. -/
theorem find?_via_filter {α : Type} (p : α → Bool) :
    ∀ l : List α, l.find? p = (l.filter p).head? := by
  intro l
  induction l with
  | nil => rfl
  | cons x xs ih =>
    cases hx : p x with
    | true =>
      rw [List.find?_cons_of_pos xs hx, List.filter_cons]
      simp [hx]
    | false =>
      rw [List.find?_cons_of_neg xs (by simp [hx]), List.filter_cons]
      rw [if_neg (by simp [hx])]
      exact ih

/-- The first record with a given version in the sorted list is the first
such record of the unsorted input. -/
theorem find?_version_sortDesc (v : String) (l : List TagRec) :
    (sortDesc l).find? (fun r => decide (r.version = v))
      = l.find? (fun r => decide (r.version = v)) := by
  rw [find?_via_filter, find?_via_filter, filter_version_sortDesc]

/-- The deduplication loop keeps, for each version not yet seen, exactly the
first record with that version from its input. -/
theorem find?_dedupLoop (v : String) :
    ∀ (l : List TagRec) (seen : List String),
      (dedupLoop l seen).find? (fun r => decide (r.version = v))
        = if v ∈ seen then none
          else l.find? (fun r => decide (r.version = v)) := by
  intro l
  induction l with
  | nil => intro seen; by_cases h : v ∈ seen <;> simp [dedupLoop, h]
  | cons r rs ih =>
    intro seen
    by_cases hr : r.version ∈ seen
    · rw [show dedupLoop (r :: rs) seen = dedupLoop rs seen from by
        simp [dedupLoop, hr]]
      rw [ih seen]
      by_cases hv : v ∈ seen
      · rw [if_pos hv, if_pos hv]
      · have hrv : ¬(r.version = v) := fun h => hv (h ▸ hr)
        rw [if_neg hv, if_neg hv, List.find?_cons_of_neg rs (by simp [hrv])]
    · rw [show dedupLoop (r :: rs) seen = r :: dedupLoop rs (r.version :: seen)
        from by simp [dedupLoop, hr]]
      by_cases hrv : r.version = v
      · have hv : v ∉ seen := fun h => hr (hrv ▸ h)
        rw [List.find?_cons_of_pos _ (by simp [hrv]), if_neg hv,
          List.find?_cons_of_pos _ (by simp [hrv])]
      · rw [List.find?_cons_of_neg _ (by simp [hrv]), ih (r.version :: seen)]
        have hmem : (v ∈ r.version :: seen) ↔ (v ∈ seen) := by
          rw [List.mem_cons]
          exact or_iff_right (fun h => hrv h.symm)
        rw [if_congr hmem rfl rfl]
        by_cases hv : v ∈ seen
        · rw [if_pos hv, if_pos hv]
        · rw [if_neg hv, if_neg hv, List.find?_cons_of_neg rs (by simp [hrv])]

/-- Every record surviving the deduplication loop has a version outside the
already-seen set. -/
theorem dedupLoop_version_not_seen :
    ∀ (l : List TagRec) (seen : List String) (x : TagRec),
      x ∈ dedupLoop l seen → x.version ∉ seen := by
  intro l
  induction l with
  | nil =>
    intro seen x h
    exact absurd h (List.not_mem_nil x)
  | cons r rs ih =>
    intro seen x h
    by_cases hr : r.version ∈ seen
    · rw [show dedupLoop (r :: rs) seen = dedupLoop rs seen from by
        simp [dedupLoop, hr]] at h
      exact ih seen x h
    · rw [show dedupLoop (r :: rs) seen = r :: dedupLoop rs (r.version :: seen)
        from by simp [dedupLoop, hr]] at h
      rcases List.mem_cons.mp h with h1 | h1
      · subst h1
        exact hr
      · have h2 := ih (r.version :: seen) x h1
        exact fun hx => h2 (List.mem_cons_of_mem _ hx)

/-- The deduplicated list carries pairwise distinct version strings. -/
theorem nodup_dedupLoop_versions :
    ∀ (l : List TagRec) (seen : List String),
      List.Nodup ((dedupLoop l seen).map TagRec.version) := by
  intro l
  induction l with
  | nil => intro seen; simp [dedupLoop]
  | cons r rs ih =>
    intro seen
    by_cases hr : r.version ∈ seen
    · rw [show dedupLoop (r :: rs) seen = dedupLoop rs seen from by
        simp [dedupLoop, hr]]
      exact ih seen
    · rw [show dedupLoop (r :: rs) seen = r :: dedupLoop rs (r.version :: seen)
        from by simp [dedupLoop, hr]]
      rw [List.map_cons, List.nodup_cons]
      constructor
      · intro hmem
        rcases List.mem_map.mp hmem with ⟨x, hx, hvx⟩
        have h2 := dedupLoop_version_not_seen rs (r.version :: seen) x hx
        exact h2 (hvx ▸ List.mem_cons_self _ _)
      · exact ih (r.version :: seen)

/-- C9: when several tags normalize to the same version string, exactly one
record per version survives deduplication — the record of the first such
tag in the original pre-sort fetch order — and the descending sort is
stable: the records of any fixed version retain their fetch order going
into deduplication. -/
theorem c9_dedup_keeps_first_pre_sort :
    ∀ (tags : List String) (v : String),
      List.Nodup ((uniqueVersions tags).map TagRec.version) ∧
        (uniqueVersions tags).find? (fun r => decide (r.version = v))
          = (versionsOf tags).find? (fun r => decide (r.version = v)) ∧
        List.filter (fun r => decide (r.version = v)) (sortDesc (versionsOf tags))
          = List.filter (fun r => decide (r.version = v)) (versionsOf tags) := by
  intro tags v
  refine ⟨nodup_dedupLoop_versions _ [], ?_, filter_version_sortDesc v _⟩
  show (dedupLoop (sortDesc (versionsOf tags)) []).find? _ = _
  rw [find?_dedupLoop v (sortDesc (versionsOf tags)) [],
    if_neg (List.not_mem_nil v)]
  exact find?_version_sortDesc v _

/-- C10: a tag whose name merely begins with the version pattern but
continues with extra characters is not dropped at the filter step: it stays
in `version_tags`, its leading numeric prefix becomes its record in
`versions`, and after deduplication the list still carries a record with
that normalized version, so the tag can only have been eliminated by
merging with an equal-version record. -/
theorem c10_version_pattern_not_dropped :
    ∀ (tags : List String) (tag : String) (tr : TagRec),
      tag ∈ tags → parseTag tag = some tr →
      tag ∈ versionTags tags ∧ tr ∈ versionsOf tags ∧
        ∃ r, r ∈ uniqueVersions tags ∧ r.version = tr.version := by
  intro tags tag tr htag hparse
  have h1 : tag ∈ versionTags tags := by
    rw [versionTags, List.mem_filter]
    exact ⟨htag, by rw [hparse]; rfl⟩
  have h2 : tr ∈ versionsOf tags := by
    rw [versionsOf]
    exact List.mem_filterMap.mpr ⟨tag, h1, hparse⟩
  refine ⟨h1, h2, ?_⟩
  have h3 : ((versionsOf tags).find?
      (fun r => decide (r.version = tr.version))).isSome := by
    rw [List.find?_isSome]
    exact ⟨tr, h2, by simp⟩
  obtain ⟨r, hr⟩ := Option.isSome_iff_exists.mp h3
  have h5 : (uniqueVersions tags).find?
      (fun q => decide (q.version = tr.version)) = some r := by
    show (dedupLoop (sortDesc (versionsOf tags)) []).find? _ = some r
    rw [find?_dedupLoop, if_neg (List.not_mem_nil _), find?_version_sortDesc]
    exact hr
  refine ⟨r, List.mem_of_find?_eq_some h5, ?_⟩
  have h6 := List.find?_some h5
  simpa using h6

/-- Witness for C10: the tag `1.2.0-rc1` passes the filter step of the
pipeline on the input `[1.2.0, 1.2.0-rc1]`, contributes the record with
version `1.2.0`, and that version is represented after deduplication. -/
theorem c10_witness :
    ("1.2.0-rc1") ∈ versionTags [("1.2.0"), ("1.2.0-rc1")] ∧
      mkTag ("1.2.0") ("1") ∈ versionsOf [("1.2.0"), ("1.2.0-rc1")] ∧
      ∃ r, r ∈ uniqueVersions [("1.2.0"), ("1.2.0-rc1")] ∧
        r.version = (mkTag ("1.2.0") ("1")).version :=
  c10_version_pattern_not_dropped [("1.2.0"), ("1.2.0-rc1")]
    ("1.2.0-rc1") (mkTag ("1.2.0") ("1")) (by decide) (by decide)

/-- C3 (amended): within one image's stored list, version strings remain
pairwise distinct after a run's merge — the prepended newer records come
from the deduplicated selection and exclude every stored version — but the
descending ordering of the full merged list is not an invariant (see the
counterexample): only distinctness persists. -/
theorem c3_versions_distinct_after_merge :
    ∀ (current : List TagRec) (tags : List String),
      List.Nodup (current.map TagRec.version) →
      List.Nodup
        ((newerOf current (selectTags tags) ++ current).map TagRec.version) := by
  intro current tags h
  rw [List.map_append, List.nodup_append]
  have hsel : List.Nodup ((selectTags tags).map TagRec.version) := by
    have hn := nodup_dedupLoop_versions (sortDesc (versionsOf tags)) []
    have hsub : ((selectTags tags).map TagRec.version).Sublist
        ((uniqueVersions tags).map TagRec.version) :=
      (List.take_sublist 10 _).map _
    exact List.Nodup.sublist hsub hn
  refine ⟨?_, h, ?_⟩
  · have hsub2 : ((newerOf current (selectTags tags)).map TagRec.version).Sublist
        ((selectTags tags).map TagRec.version) :=
      (List.filter_sublist _).map _
    exact List.Nodup.sublist hsub2 hsel
  · intro a ha hb
    rcases List.mem_map.mp ha with ⟨t, ht, rfl⟩
    have ht2 : t.version ∉ current.map TagRec.version := by
      have := (List.mem_filter.mp ht).2
      simpa using this
    exact ht2 hb

/-- Witness for C3 (amended): merging version `3.0` into a snapshot list
holding version `2.0` keeps the version strings distinct. -/
theorem c3_witness :
    List.Nodup ([mkTag ("2.0") ("2")].map TagRec.version) ∧
      List.Nodup
        ((newerOf [mkTag ("2.0") ("2")] (selectTags [("3.0")])
            ++ [mkTag ("2.0") ("2")]).map TagRec.version) :=
  ⟨by decide, c3_versions_distinct_after_merge _ _ (by decide)⟩

end DockerImageScraper
